import Mathlib

/-!
# Verification of the riscu decode front-end

Shallow embedding of `src/decompress.rs` and `src/elf.rs` of the `riscu`
repository, together with theorems settling the frozen claims about the
compressed-instruction decompressor, the bit permutation utility and the
ELF64 RISC-U loader.

16-bit and 32-bit machine words are modelled as `Nat` with explicit
`% 2 ^ w` reductions where the Rust code can wrap.  Rust `panic!` sites
(`assert!` failures and `unreachable!()` arms) are modelled by a dedicated
`Outcome.panic` constructor, so that "the code aborts" is a provable,
executable statement.
-/

/-- Modelled from the spec: the classified decoding error type
(`crate::DecodingError`, declared outside `src/`): `Illegal` (the bit
pattern can never be a valid instruction), `Reserved` (pattern reserved by
the ISA spec) and `Unimplemented` (valid but decoder support pending). -/
inductive DecodingError where
  | illegal
  | reserved
  | unimplemented
deriving DecidableEq

/-- Result of running fallible Rust code that may also panic: `ok` models
`Ok`, `err` models `Err`, and `panic` models an `assert!` failure or a
reached `unreachable!()` arm. -/
inductive Outcome (ε : Type) (α : Type) where
  | ok (a : α)
  | err (e : ε)
  | panic
deriving DecidableEq

/-- `true` iff the outcome is `ok`. -/
def Outcome.isOk {ε α : Type} : Outcome ε α → Bool
  | .ok _ => true
  | _ => false

/-- The payload of an `ok` outcome, or the supplied default otherwise. -/
def Outcome.getOkD {ε α : Type} (r : Outcome ε α) (d : α) : α :=
  match r with
  | .ok a => a
  | _ => d

/-- Result type of the quadrant decompressors: a 32-bit instruction word
(`u32`, modelled as `Nat`), a `DecodingError`, or a panic. -/
abbrev DecompressionResult := Outcome DecodingError Nat

/-- Modelled from the spec: the external `crate::Register` identifiers used
by the decompressor — the zero register (x0) and the stack pointer (x2),
with their RISC-V ABI numbers. -/
inductive Register where
  | zero
  | sp

/-- Numeric value of a `Register` (the Rust `Register::… as u16` cast). -/
def Register.toNat : Register → Nat
  | .zero => 0
  | .sp => 2

/-- The `CrInstr` enum of `decompress.rs`. -/
inductive CrInstr where
  | sub

/-- The `CiInstr` enum of `decompress.rs`. -/
inductive CiInstr where
  | addi
  | lw

/-- The `InstrFormat` enum of `decompress.rs`. -/
inductive InstrFormat where
  | ci

/-- `build_rtype` of `decompress.rs`: packs funct7/rs2/rs1/funct3/rd/opcode
into a 32-bit R-type instruction word.  The `% 2 ^ 32` models the `u32`
width of the Rust arithmetic. -/
def build_rtype (instruction_type : CrInstr) (rd rs1 rs2 : Nat) : Nat :=
  let mold := fun (funct7 rs2 rs1 funct3 rd opcode : Nat) =>
    ((funct7 <<< 25) ||| (rs2 <<< 20) ||| (rs1 <<< 15) ||| (funct3 <<< 12) |||
      (rd <<< 7) ||| opcode) % 2 ^ 32
  match instruction_type with
  | .sub => mold 0b0100000 rs2 rs1 0b000 rd 0b0110011

/-- `build_itype` of `decompress.rs`: packs imm/rs1/funct3/rd/opcode into a
32-bit I-type instruction word.  The `Lw` arm ignores the caller's `rs1`
and hard-codes the stack pointer, as in the source. -/
def build_itype (instruction_type : CiInstr) (rd rs1 imm : Nat) : Nat :=
  let mold := fun (imm rs1 funct3 rd opcode : Nat) =>
    ((imm <<< 20) ||| (rs1 <<< 15) ||| (funct3 <<< 12) ||| (rd <<< 7) |||
      opcode) % 2 ^ 32
  match instruction_type with
  | .addi => mold imm rs1 0b000 rd 0b0010011
  | .lw => mold imm Register.sp.toNat 0b010 rd 0b0000011

/-- `get_imm` of `decompress.rs`: the raw CI-format immediate, bit 12 of
the input as bit 5 and bits 2-6 of the input as bits 0-4. -/
def get_imm (i : Nat) (fmt : InstrFormat) : Nat :=
  match fmt with
  | .ci => ((i >>> 7) &&& 0b100000) ||| ((i >>> 2) &&& 0b11111)

/-- One term of the Rust permutation sums: bit `p.1` of `x` moved to bit
position `p.2`; `depositBits` sums these over a list of (source, target)
pairs.  Both `permute` and `inv_permute` of `decompress.rs` are such sums. -/
def depositBits (x : Nat) (ps : List (Nat × Nat)) : Nat :=
  (ps.map (fun p => ((x >>> p.1) &&& 0b1) <<< p.2)).sum

/-- `<u16 as Permutable>::inv_permute` of `decompress.rs`: bit `k` of the
input (counting over the reversed permutation list) is written to the
position named by the list entry.  The `% 2 ^ 16` models the `u16` sum. -/
def u16_inv_permute (x : Nat) (perm : List Nat) : Nat :=
  depositBits x perm.reverse.enum % 2 ^ 16

/-- `<u16 as Permutable>::permute` of `decompress.rs`: the bit at the
position named by the list entry is written to bit `k` of the output
(counting over the reversed permutation list). -/
def u16_permute (x : Nat) (perm : List Nat) : Nat :=
  depositBits x (perm.reverse.enum.map (fun p => (p.2, p.1))) % 2 ^ 16

/-- `<u32 as Permutable>::inv_permute` of `decompress.rs`. -/
def u32_inv_permute (x : Nat) (perm : List Nat) : Nat :=
  depositBits x perm.reverse.enum % 2 ^ 32

/-- `<u32 as Permutable>::permute` of `decompress.rs`. -/
def u32_permute (x : Nat) (perm : List Nat) : Nat :=
  depositBits x (perm.reverse.enum.map (fun p => (p.2, p.1))) % 2 ^ 32

/-- `decompress_q0` of `decompress.rs`. -/
def decompress_q0 (i : Nat) : DecompressionResult :=
  match (i >>> 13) &&& 0b111 with
  | 0b000 => .err .illegal
  | 0b001 => .err .unimplemented  -- C.FLD
  | 0b010 => .err .unimplemented  -- C.LW
  | 0b011 => .err .unimplemented  -- C.LD
  | 0b100 => .err .reserved
  | 0b101 => .err .unimplemented  -- C.FSD
  | 0b110 => .err .unimplemented  -- C.SW
  | 0b111 => .err .unimplemented  -- C.SD
  | _ => .panic                   -- unreachable!()

/-- `decompress_q1` of `decompress.rs`.  The `assert!(rd != 0)` of the
C.LI arm and the `unreachable!()` arms are modelled as `.panic`. -/
def decompress_q1 (i : Nat) : DecompressionResult :=
  match (i >>> 13) &&& 0b111 with
  | 0b000 => .err .unimplemented  -- C.ADDI
  | 0b001 => .err .unimplemented  -- C.ADDIW
  | 0b010 =>                      -- C.LI
    let rd := (i >>> 7) &&& 0b11111
    let imm := get_imm i InstrFormat.ci
    if rd ≠ 0 then .ok (build_itype CiInstr.addi rd Register.zero.toNat imm)
    else .panic                   -- assert!(rd != 0, "rd == 0 is reserved!")
  | 0b011 => .err .unimplemented  -- C.LUI/C.ADDI16SP
  | 0b100 =>                      -- MISC-ALU
    match (i >>> 10) &&& 0b11 with
    | 0b00 => .err .unimplemented
    | 0b01 => .err .unimplemented
    | 0b10 => .err .unimplemented
    | 0b11 =>
      let rs1_rd := 8 + ((i >>> 7) &&& 0b111)
      let rs2 := 8 + ((i >>> 2) &&& 0b111)
      match (i >>> 12) &&& 0b1, (i >>> 5) &&& 0b11 with
      | 0, 0b00 => .ok (build_rtype CrInstr.sub rs1_rd rs1_rd rs2)
      | 1, 0b10 => .err .reserved
      | 1, 0b11 => .err .reserved
      | _, _ => .panic            -- unreachable!()
    | _ => .err .unimplemented
  | 0b101 => .err .unimplemented  -- C.J
  | 0b110 => .err .unimplemented  -- C.BEQZ
  | 0b111 => .err .unimplemented  -- C.BNEZ
  | _ => .panic                   -- unreachable!()

/-- `decompress_q2` of `decompress.rs`.  The `assert!(rd != 0)` of the
C.LWSP arm and the `unreachable!()` arm are modelled as `.panic`. -/
def decompress_q2 (i : Nat) : DecompressionResult :=
  match (i >>> 13) &&& 0b111 with
  | 0b000 => .err .unimplemented  -- C.SLLI
  | 0b001 => .err .unimplemented  -- C.FLDSP
  | 0b010 =>                      -- C.LWSP
    let rd := (i >>> 7) &&& 0b11111
    let imm := u16_inv_permute (get_imm i InstrFormat.ci) [5, 4, 3, 2, 7, 6]
    if rd ≠ 0 then .ok (build_itype CiInstr.lw rd 0 imm)
    else .panic                   -- assert!(rd != 0, "rd == 0 is reserved!")
  | 0b011 => .err .unimplemented  -- C.LDSP
  | 0b100 => .err .unimplemented  -- C.{RJ,MV,EBREAK,JALR,ADD}
  | 0b101 => .err .unimplemented  -- C.FSDSP
  | 0b110 => .err .unimplemented  -- C.SWSP
  | 0b111 => .err .unimplemented  -- C.SDSP
  | _ => .panic                   -- unreachable!()

set_option maxRecDepth 8192
set_option linter.unusedVariables false

/-- Modelled from the spec: the loader error type (`ElfLoaderError` of
`elf.rs`; the payloads of the file-read and ELF-parse variants are external
error types, modelled as strings). -/
inductive ElfLoaderError where
  | couldNotReadFile (msg : String)
  | invalidElf (msg : String)
  | invalidRiscu (msg : String)
  | decodingError (e : DecodingError)
deriving DecidableEq

/-- An ELF program header as consumed by `extract_program_info`:
its type tag, the three permission predicates (`goblin`'s `is_write`,
`is_read`, `is_executable`) and its file range (`p_offset`, `p_filesz`). -/
structure ProgramHeader where
  p_type : Nat
  is_write : Bool
  is_read : Bool
  is_executable : Bool
  p_offset : Nat
  p_filesz : Nat
deriving DecidableEq

/-- The fields of a parsed ELF image that `extract_program_info` consults. -/
structure Elf where
  is_lib : Bool
  is_64 : Bool
  little_endian : Bool
  e_phnum : Nat
  program_headers : List ProgramHeader
  entry : Nat
deriving DecidableEq

/-- The `PT_LOAD` program-header type tag. -/
def ptLoad : Nat := 1

/-- `extract_program_info` of `elf.rs`: validates the RISC-U shape of a
parsed ELF image and extracts the code segment bytes, data segment bytes
and entry address.  The final out-of-range slice panic of `&raw[range]` is
modelled as `.panic`. -/
def extract_program_info (raw : List Nat) (elf : Elf) :
    Outcome ElfLoaderError (List Nat × List Nat × Nat) :=
  if elf.is_lib || !elf.is_64 || !elf.little_endian then
    .err (.invalidRiscu ("has to be an executable, 64bit, static, little endian binary"))
  else
    let loadable := elf.program_headers.filter (fun ph => ph.p_type == ptLoad)
    if elf.e_phnum ≠ 2 ∨ loadable.length ≠ 2 then
      .err (.invalidRiscu ("must have 2 program segments"))
    else
      match loadable.find? (fun ph => !ph.is_write && !ph.is_read && ph.is_executable) with
      | none => .err (.invalidRiscu ("code segment (must be executable only) is missing"))
      | some ch =>
        match loadable.find? (fun ph => ph.is_write && ph.is_read && !ph.is_executable) with
        | none => .err (.invalidRiscu ("data segment (must be readable and writable only) is missing"))
        | some dh =>
          if ch.p_offset + ch.p_filesz ≤ raw.length ∧ dh.p_offset + dh.p_filesz ≤ raw.length then
            .ok ((raw.drop ch.p_offset).take ch.p_filesz,
                 (raw.drop dh.p_offset).take dh.p_filesz, elf.entry)
          else .panic

/-- Rust's `chunks_exact(n)`: the consecutive `n`-byte chunks of `l`, the
final partial chunk (fewer than `n` elements) being dropped. -/
def chunksExact (n : Nat) (l : List Nat) : List (List Nat) :=
  if h : 0 < n ∧ n ≤ l.length then l.take n :: chunksExact n (l.drop n) else []
termination_by l.length
decreasing_by simp only [List.length_drop]; omega

/-- `byteorder`'s little-endian read: the first byte of the chunk is the
least significant. -/
def readLE (chunk : List Nat) : Nat :=
  chunk.foldr (fun b acc => b + 256 * acc) 0

/-- The `DecodedRiscuProgram` struct of `elf.rs`, generic over the external
`Instruction` type. -/
structure DecodedRiscuProgram (α : Type) where
  code_segment : List α
  data_segment : List Nat
  entry_address : Nat
deriving DecidableEq

/-- `copy_and_decode_segments` of `elf.rs`, parameterized by the external
32-bit `decode` function: decodes every exact 4-byte little-endian chunk of
the code segment (the first decode error aborting the whole computation)
and reads every exact 8-byte little-endian chunk of the data segment. -/
def copy_and_decode_segments {α : Type} (decode : Nat → Except DecodingError α)
    (program : List Nat × List Nat × Nat) :
    Except ElfLoaderError (DecodedRiscuProgram α) := do
  let code_segment ← (chunksExact 4 program.1).mapM
    (fun c => (decode (readLE c)).mapError ElfLoaderError.decodingError)
  let data_segment := (chunksExact 8 program.2.1).map readLE
  pure { code_segment := code_segment, data_segment := data_segment,
         entry_address := program.2.2 }

/-- The 12-bit two's-complement sign extension of a 6-bit value, following
the words of the spec ("the sign-extended 6-bit CI immediate", bit 5 being
the sign bit): spec-side definition used to state the refuted reading of
the C.LI immediate claim. -/
def signExtend6To12 (v : Nat) : Nat :=
  if v &&& 0b100000 = 0 then v else v + 4032

section MaskLemmas

theorem and_mask1 (x : Nat) : x &&& 1 = x % 2 := Nat.and_one_is_mod x

theorem and_mask3 (x : Nat) : x &&& 3 = x % 4 := by
  have h := Nat.and_pow_two_sub_one_eq_mod x 2
  norm_num at h
  exact h

theorem and_mask7 (x : Nat) : x &&& 7 = x % 8 := by
  have h := Nat.and_pow_two_sub_one_eq_mod x 3
  norm_num at h
  exact h

theorem and_mask31 (x : Nat) : x &&& 31 = x % 32 := by
  have h := Nat.and_pow_two_sub_one_eq_mod x 5
  norm_num at h
  exact h

theorem and_mask127 (x : Nat) : x &&& 127 = x % 128 := by
  have h := Nat.and_pow_two_sub_one_eq_mod x 7
  norm_num at h
  exact h

end MaskLemmas

section FieldPacking

theorem pack5 (imm rs1 f3 rd op : Nat) (hrs1 : rs1 < 32) (hf3 : f3 < 8)
    (hrd : rd < 32) (hop : op < 128) :
    (imm <<< 20) ||| (rs1 <<< 15) ||| (f3 <<< 12) ||| (rd <<< 7) ||| op
      = imm * 1048576 + rs1 * 32768 + f3 * 4096 + rd * 128 + op := by
  have hb1 : rs1 * 2 ^ 15 < 2 ^ 20 := by
    calc rs1 * 2 ^ 15 ≤ 31 * 2 ^ 15 := Nat.mul_le_mul_right _ (by omega)
    _ < 2 ^ 20 := by norm_num
  have hb2 : f3 * 2 ^ 12 < 2 ^ 15 := by
    calc f3 * 2 ^ 12 ≤ 7 * 2 ^ 12 := Nat.mul_le_mul_right _ (by omega)
    _ < 2 ^ 15 := by norm_num
  have hb3 : rd * 2 ^ 7 < 2 ^ 12 := by
    calc rd * 2 ^ 7 ≤ 31 * 2 ^ 7 := Nat.mul_le_mul_right _ (by omega)
    _ < 2 ^ 12 := by norm_num
  have hb4 : op < 2 ^ 7 := by omega
  calc (imm <<< 20) ||| (rs1 <<< 15) ||| (f3 <<< 12) ||| (rd <<< 7) ||| op
      = (2 ^ 20 * imm ||| rs1 * 2 ^ 15) ||| f3 * 2 ^ 12 ||| rd * 2 ^ 7 ||| op := by
        rw [Nat.shiftLeft_eq, Nat.shiftLeft_eq, Nat.shiftLeft_eq, Nat.shiftLeft_eq,
          Nat.mul_comm imm (2 ^ 20)]
    _ = (2 ^ 20 * imm + rs1 * 2 ^ 15) ||| f3 * 2 ^ 12 ||| rd * 2 ^ 7 ||| op := by
        rw [← Nat.mul_add_lt_is_or hb1 imm]
    _ = (2 ^ 15 * (32 * imm + rs1) + f3 * 2 ^ 12) ||| rd * 2 ^ 7 ||| op := by
        rw [show 2 ^ 20 * imm + rs1 * 2 ^ 15 = 2 ^ 15 * (32 * imm + rs1) by ring,
          ← Nat.mul_add_lt_is_or hb2]
    _ = (2 ^ 12 * (8 * (32 * imm + rs1) + f3) + rd * 2 ^ 7) ||| op := by
        rw [show 2 ^ 15 * (32 * imm + rs1) + f3 * 2 ^ 12
            = 2 ^ 12 * (8 * (32 * imm + rs1) + f3) by ring,
          ← Nat.mul_add_lt_is_or hb3]
    _ = 2 ^ 7 * (32 * (8 * (32 * imm + rs1) + f3) + rd) + op := by
        rw [show 2 ^ 12 * (8 * (32 * imm + rs1) + f3) + rd * 2 ^ 7
            = 2 ^ 7 * (32 * (8 * (32 * imm + rs1) + f3) + rd) by ring,
          ← Nat.mul_add_lt_is_or hb4]
    _ = imm * 1048576 + rs1 * 32768 + f3 * 4096 + rd * 128 + op := by ring

theorem pack6 (f7 rs2 rs1 f3 rd op : Nat) (hf7 : f7 < 128) (hrs2 : rs2 < 32)
    (hrs1 : rs1 < 32) (hf3 : f3 < 8) (hrd : rd < 32) (hop : op < 128) :
    (f7 <<< 25) ||| (rs2 <<< 20) ||| (rs1 <<< 15) ||| (f3 <<< 12) ||| (rd <<< 7) ||| op
      = f7 * 33554432 + rs2 * 1048576 + rs1 * 32768 + f3 * 4096 + rd * 128 + op := by
  have hb0 : rs2 * 2 ^ 20 < 2 ^ 25 := by
    calc rs2 * 2 ^ 20 ≤ 31 * 2 ^ 20 := Nat.mul_le_mul_right _ (by omega)
    _ < 2 ^ 25 := by norm_num
  have hb1 : rs1 * 2 ^ 15 < 2 ^ 20 := by
    calc rs1 * 2 ^ 15 ≤ 31 * 2 ^ 15 := Nat.mul_le_mul_right _ (by omega)
    _ < 2 ^ 20 := by norm_num
  have hb2 : f3 * 2 ^ 12 < 2 ^ 15 := by
    calc f3 * 2 ^ 12 ≤ 7 * 2 ^ 12 := Nat.mul_le_mul_right _ (by omega)
    _ < 2 ^ 15 := by norm_num
  have hb3 : rd * 2 ^ 7 < 2 ^ 12 := by
    calc rd * 2 ^ 7 ≤ 31 * 2 ^ 7 := Nat.mul_le_mul_right _ (by omega)
    _ < 2 ^ 12 := by norm_num
  have hb4 : op < 2 ^ 7 := by omega
  calc (f7 <<< 25) ||| (rs2 <<< 20) ||| (rs1 <<< 15) ||| (f3 <<< 12) ||| (rd <<< 7) ||| op
      = (2 ^ 25 * f7 ||| rs2 * 2 ^ 20) ||| rs1 * 2 ^ 15 ||| f3 * 2 ^ 12 ||| rd * 2 ^ 7 ||| op := by
        rw [Nat.shiftLeft_eq, Nat.shiftLeft_eq, Nat.shiftLeft_eq, Nat.shiftLeft_eq,
          Nat.shiftLeft_eq, Nat.mul_comm f7 (2 ^ 25)]
    _ = (2 ^ 25 * f7 + rs2 * 2 ^ 20) ||| rs1 * 2 ^ 15 ||| f3 * 2 ^ 12 ||| rd * 2 ^ 7 ||| op := by
        rw [← Nat.mul_add_lt_is_or hb0 f7]
    _ = (2 ^ 20 * (32 * f7 + rs2) + rs1 * 2 ^ 15) ||| f3 * 2 ^ 12 ||| rd * 2 ^ 7 ||| op := by
        rw [show 2 ^ 25 * f7 + rs2 * 2 ^ 20 = 2 ^ 20 * (32 * f7 + rs2) by ring,
          ← Nat.mul_add_lt_is_or hb1]
    _ = (2 ^ 15 * (32 * (32 * f7 + rs2) + rs1) + f3 * 2 ^ 12) ||| rd * 2 ^ 7 ||| op := by
        rw [show 2 ^ 20 * (32 * f7 + rs2) + rs1 * 2 ^ 15
            = 2 ^ 15 * (32 * (32 * f7 + rs2) + rs1) by ring,
          ← Nat.mul_add_lt_is_or hb2]
    _ = (2 ^ 12 * (8 * (32 * (32 * f7 + rs2) + rs1) + f3) + rd * 2 ^ 7) ||| op := by
        rw [show 2 ^ 15 * (32 * (32 * f7 + rs2) + rs1) + f3 * 2 ^ 12
            = 2 ^ 12 * (8 * (32 * (32 * f7 + rs2) + rs1) + f3) by ring,
          ← Nat.mul_add_lt_is_or hb3]
    _ = 2 ^ 7 * (32 * (8 * (32 * (32 * f7 + rs2) + rs1) + f3) + rd) + op := by
        rw [show 2 ^ 12 * (8 * (32 * (32 * f7 + rs2) + rs1) + f3) + rd * 2 ^ 7
            = 2 ^ 7 * (32 * (8 * (32 * (32 * f7 + rs2) + rs1) + f3) + rd) by ring,
          ← Nat.mul_add_lt_is_or hb4]
    _ = f7 * 33554432 + rs2 * 1048576 + rs1 * 32768 + f3 * 4096 + rd * 128 + op := by ring

/-- Arithmetic characterization of `build_itype CiInstr.addi`. -/
theorem build_itype_addi_eq (rd rs1 imm : Nat) (hrd : rd < 32) (hrs1 : rs1 < 32)
    (himm : imm < 4096) :
    build_itype CiInstr.addi rd rs1 imm = imm * 1048576 + rs1 * 32768 + rd * 128 + 19 := by
  show ((imm <<< 20) ||| (rs1 <<< 15) ||| (0 <<< 12) ||| (rd <<< 7) ||| 19) % 2 ^ 32 = _
  rw [pack5 imm rs1 0 rd 19 hrs1 (by omega) hrd (by omega)]
  rw [show (2 : Nat) ^ 32 = 4294967296 by norm_num]
  rw [Nat.mod_eq_of_lt (by omega)]
  ring

/-- Arithmetic characterization of `build_itype CiInstr.lw` (which ignores
its `rs1` argument and hard-codes the stack pointer register 2). -/
theorem build_itype_lw_eq (rd rs1 imm : Nat) (hrd : rd < 32) (himm : imm < 4096) :
    build_itype CiInstr.lw rd rs1 imm
      = imm * 1048576 + 2 * 32768 + 2 * 4096 + rd * 128 + 3 := by
  show ((imm <<< 20) ||| (Register.sp.toNat <<< 15) ||| (2 <<< 12) ||| (rd <<< 7) ||| 3) % 2 ^ 32 = _
  rw [show Register.sp.toNat = 2 from rfl]
  rw [pack5 imm 2 2 rd 3 (by omega) (by omega) hrd (by omega)]
  rw [show (2 : Nat) ^ 32 = 4294967296 by norm_num]
  rw [Nat.mod_eq_of_lt (by omega)]

/-- Arithmetic characterization of `build_rtype CrInstr.sub`. -/
theorem build_rtype_sub_eq (rd rs1 rs2 : Nat) (hrd : rd < 32) (hrs1 : rs1 < 32)
    (hrs2 : rs2 < 32) :
    build_rtype CrInstr.sub rd rs1 rs2
      = 32 * 33554432 + rs2 * 1048576 + rs1 * 32768 + rd * 128 + 51 := by
  show ((32 <<< 25) ||| (rs2 <<< 20) ||| (rs1 <<< 15) ||| (0 <<< 12) ||| (rd <<< 7) ||| 51) % 2 ^ 32 = _
  rw [pack6 32 rs2 rs1 0 rd 51 (by omega) hrs2 hrs1 (by omega) hrd (by omega)]
  rw [show (2 : Nat) ^ 32 = 4294967296 by norm_num]
  rw [Nat.mod_eq_of_lt (by omega)]
  ring

/-- The raw CI immediate is a 6-bit value. -/
theorem get_imm_lt (i : Nat) : get_imm i InstrFormat.ci < 64 := by
  show ((i >>> 7) &&& 32) ||| ((i >>> 2) &&& 31) < 64
  have h1 : (i >>> 7) &&& 32 ≤ 32 := Nat.and_le_right
  have h2 : (i >>> 2) &&& 31 ≤ 31 := Nat.and_le_right
  rw [show (64 : Nat) = 2 ^ 6 by norm_num]
  exact Nat.or_lt_two_pow (by omega) (by omega)

end FieldPacking

/-- Each deposited bit contributes at most `2 ^ target`. -/
theorem depositBits_le (x : Nat) (ps : List (Nat × Nat)) :
    depositBits x ps ≤ (ps.map (fun p => 2 ^ p.2)).sum := by
  induction ps with
  | nil => simp [depositBits]
  | cons p ps ih =>
    simp only [depositBits, List.map_cons, List.sum_cons] at ih ⊢
    have ht : ((x >>> p.1) &&& 1) <<< p.2 ≤ 2 ^ p.2 := by
      rw [Nat.shiftLeft_eq]
      have hc : (x >>> p.1) &&& 1 ≤ 1 := Nat.and_le_right
      calc ((x >>> p.1) &&& 1) * 2 ^ p.2 ≤ 1 * 2 ^ p.2 := Nat.mul_le_mul_right _ hc
      _ = 2 ^ p.2 := by ring
    omega

/-- The C.LWSP immediate (inverse-permuted CI immediate) is below 4096. -/
theorem lwsp_imm_lt (g : Nat) :
    u16_inv_permute g [5, 4, 3, 2, 7, 6] < 4096 := by
  have h1 := depositBits_le g (([5, 4, 3, 2, 7, 6] : List Nat).reverse.enum)
  have h2 : ((([5, 4, 3, 2, 7, 6] : List Nat).reverse.enum).map (fun p => 2 ^ p.2)).sum
      = 252 := by decide
  rw [h2] at h1
  have h3 := Nat.mod_le (depositBits g (([5, 4, 3, 2, 7, 6] : List Nat).reverse.enum)) (2 ^ 16)
  unfold u16_inv_permute
  omega

section Loader

/-- `mapM` over Except: success along a pointwise `Forall₂` relation. -/
theorem exceptMapM_ok {ε α β : Type} (g : α → Except ε β) :
    ∀ (ws : List α) (bs : List β),
      List.Forall₂ (fun w b => g w = .ok b) ws bs → ws.mapM g = .ok bs := by
  intro ws
  induction ws with
  | nil =>
    intro bs h
    cases h
    rfl
  | cons w ws ih =>
    intro bs h
    cases h with
    | cons hw htail =>
      rw [List.mapM_cons, hw, ih _ htail]
      rfl

/-- `mapM` over Except: the first failing element decides the error. -/
theorem exceptMapM_err {ε α β : Type} (g : α → Except ε β) (e : ε) :
    ∀ (pre : List α) (w : α) (post : List α),
      (∀ v ∈ pre, ∃ b, g v = .ok b) → g w = .error e →
      (pre ++ w :: post).mapM g = .error e := by
  intro pre
  induction pre with
  | nil =>
    intro w post _ hw
    rw [List.nil_append, List.mapM_cons, hw]
    rfl
  | cons v pre ih =>
    intro w post hpre hw
    obtain ⟨b, hb⟩ := hpre v (List.mem_cons_self v pre)
    have ht := ih w post (fun u hu => hpre u (List.mem_cons_of_mem _ hu)) hw
    rw [List.cons_append, List.mapM_cons, hb, ht]
    rfl

/-- `mapM` after `map` composes the functions. -/
theorem exceptMapM_map {α β γ ε : Type} (f : α → β) (g : β → Except ε γ) :
    ∀ l : List α, (l.map f).mapM g = l.mapM (fun a => g (f a)) := by
  intro l
  induction l with
  | nil => rfl
  | cons a l ih => rw [List.map_cons, List.mapM_cons, List.mapM_cons, ih]

/-- `chunksExact` yields exactly `⌊length / n⌋` chunks. -/
theorem chunksExact_length (n : Nat) (hn : 0 < n) :
    ∀ l : List Nat, (chunksExact n l).length = l.length / n := by
  have H : ∀ N, ∀ l : List Nat, l.length ≤ N →
      (chunksExact n l).length = l.length / n := by
    intro N
    induction N with
    | zero =>
      intro l hl
      rw [chunksExact, dif_neg (by omega)]
      have hl0 : l.length = 0 := by omega
      simp [hl0]
    | succ N ih =>
      intro l hl
      rw [chunksExact]
      by_cases hc : 0 < n ∧ n ≤ l.length
      · rw [dif_pos hc]
        have hrec := ih (l.drop n) (by simp; omega)
        simp only [List.length_cons, hrec, List.length_drop]
        rw [Nat.div_eq_sub_div hn hc.2]
      · rw [dif_neg hc]
        have hlen : l.length < n := by omega
        simp [Nat.div_eq_of_lt hlen]
  exact fun l => H l.length l (Nat.le_refl _)

/-- `chunksExact` ignores the trailing partial chunk: it only sees the
first `n * ⌊length / n⌋` elements. -/
theorem chunksExact_take (n : Nat) (hn : 0 < n) :
    ∀ l : List Nat, chunksExact n (l.take (n * (l.length / n))) = chunksExact n l := by
  have H : ∀ N, ∀ l : List Nat, l.length ≤ N →
      chunksExact n (l.take (n * (l.length / n))) = chunksExact n l := by
    intro N
    induction N with
    | zero =>
      intro l hl
      have hl0 : l = [] := List.length_eq_zero.mp (by omega)
      subst hl0
      simp
    | succ N ih =>
      intro l hl
      by_cases hc : n ≤ l.length
      · obtain ⟨q, hq⟩ : ∃ q, l.length / n = q + 1 :=
          ⟨l.length / n - 1, by
            have h1 : 1 ≤ l.length / n := (Nat.one_le_div_iff hn).mpr hc
            omega⟩
        have hmul_le : n * (l.length / n) ≤ l.length := by
          have := Nat.div_mul_le_self l.length n
          calc n * (l.length / n) = l.length / n * n := Nat.mul_comm _ _
          _ ≤ l.length := this
        have hlen_take : (l.take (n * (l.length / n))).length = n * (l.length / n) :=
          List.length_take_of_le hmul_le
        have hcondL : 0 < n ∧ n ≤ (l.take (n * (l.length / n))).length := by
          constructor
          · exact hn
          · rw [hlen_take, hq]
            calc n = n * 1 := by ring
            _ ≤ n * (q + 1) := Nat.mul_le_mul_left n (by omega)
        conv_lhs => rw [chunksExact, dif_pos hcondL]
        conv_rhs => rw [chunksExact, dif_pos ⟨hn, hc⟩]
        have hdrop_div : (l.drop n).length / n = q := by
          have h2 := Nat.div_eq_sub_div hn hc
          rw [List.length_drop]
          omega
        have hhead : (l.take (n * (l.length / n))).take n = l.take n := by
          rw [List.take_take]
          have : min n (n * (l.length / n)) = n := by
            rw [hq]
            have : n ≤ n * (q + 1) := by
              calc n = n * 1 := by ring
              _ ≤ n * (q + 1) := Nat.mul_le_mul_left n (by omega)
            omega
          rw [this]
        have htail : (l.take (n * (l.length / n))).drop n
            = (l.drop n).take (n * ((l.drop n).length / n)) := by
          rw [List.drop_take, hdrop_div, hq]
          have : n * (q + 1) - n = n * q := by
            have : n * (q + 1) = n * q + n := by ring
            omega
          rw [this]
        rw [hhead, htail, ih (l.drop n) (by simp; omega)]
      · have hq0 : l.length / n = 0 := Nat.div_eq_of_lt (by omega)
        have h1 : chunksExact n [] = [] := by
          rw [chunksExact, dif_neg (by simp only [List.length_nil]; omega)]
        have h2 : chunksExact n l = [] := by
          rw [chunksExact, dif_neg (by omega)]
        rw [hq0, Nat.mul_zero, List.take_zero, h1, h2]
  exact fun l => H l.length l (Nat.le_refl _)

/-- The success payload of `mapM` over Except has the same length. -/
theorem exceptMapM_total {ε α β : Type} (g : α → Except ε β) :
    ∀ ws : List α, (∀ w ∈ ws, ∃ b, g w = .ok b) →
      ∃ bs, ws.mapM g = .ok bs ∧ bs.length = ws.length := by
  intro ws
  induction ws with
  | nil => intro _; exact ⟨[], rfl, rfl⟩
  | cons w ws ih =>
    intro h
    obtain ⟨b, hb⟩ := h w (List.mem_cons_self w ws)
    obtain ⟨bs, hbs, hlen⟩ := ih (fun u hu => h u (List.mem_cons_of_mem _ hu))
    refine ⟨b :: bs, ?_, by simp [hlen]⟩
    rw [List.mapM_cons, hb, hbs]
    rfl

/-- `mapM` of decode-after-read over chunks, rephrased over the read words. -/
theorem mapM_readLE_decode {α : Type} (decode : Nat → Except DecodingError α) :
    ∀ l : List (List Nat),
      l.mapM (fun c => (decode (readLE c)).mapError ElfLoaderError.decodingError)
        = (l.map readLE).mapM (fun w => (decode w).mapError ElfLoaderError.decodingError) := by
  intro l
  induction l with
  | nil => rfl
  | cons c l ih => rw [List.map_cons, List.mapM_cons, List.mapM_cons, ih]

/-- `copy_and_decode_segments`, written as one bind over the decoded words. -/
theorem copy_and_decode_segments_eq {α : Type} (decode : Nat → Except DecodingError α)
    (code data : List Nat) (entry : Nat) :
    copy_and_decode_segments decode (code, data, entry)
      = (((chunksExact 4 code).map readLE).mapM
            (fun w => (decode w).mapError ElfLoaderError.decodingError)).bind
          (fun cs => Except.ok ⟨cs, (chunksExact 8 data).map readLE, entry⟩) := by
  rw [show copy_and_decode_segments decode (code, data, entry)
      = ((chunksExact 4 code).mapM
          (fun c => (decode (readLE c)).mapError ElfLoaderError.decodingError)).bind
          (fun cs => Except.ok ⟨cs, (chunksExact 8 data).map readLE, entry⟩) from rfl]
  rw [mapM_readLE_decode]

end Loader

/-- **C9** Decoding a loaded program's segments: if `decode` fails on some
4-byte little-endian code word (the first failing word having error `e`),
`copy_and_decode_segments` returns `ElfLoaderError.DecodingError e` and no
program; if `decode` succeeds on every code word, the result holds the
decoded instruction of each consecutive 4-byte little-endian chunk in
order, and the data segment as consecutive 8-byte little-endian words. -/
theorem c9_decode_segments {α : Type} (decode : Nat → Except DecodingError α)
    (code data : List Nat) (entry : Nat) :
    (∀ (pre : List Nat) (w : Nat) (post : List Nat) (e : DecodingError),
        (chunksExact 4 code).map readLE = pre ++ w :: post →
        (∀ v ∈ pre, ∃ a, decode v = .ok a) →
        decode w = .error e →
        copy_and_decode_segments decode (code, data, entry)
          = .error (ElfLoaderError.decodingError e))
    ∧ (∀ instrs : List α,
        List.Forall₂ (fun w a => decode w = .ok a)
            ((chunksExact 4 code).map readLE) instrs →
        copy_and_decode_segments decode (code, data, entry)
          = .ok ⟨instrs, (chunksExact 8 data).map readLE, entry⟩) := by
  constructor
  · intro pre w post e hsplit hpre herr
    have hg : ((chunksExact 4 code).map readLE).mapM
        (fun v => (decode v).mapError ElfLoaderError.decodingError)
          = .error (ElfLoaderError.decodingError e) := by
      rw [hsplit]
      apply exceptMapM_err
      · intro v hv
        obtain ⟨a, ha⟩ := hpre v hv
        exact ⟨a, by rw [ha]; rfl⟩
      · rw [herr]; rfl
    rw [copy_and_decode_segments_eq, hg]
    rfl
  · intro instrs hfor
    have hg : ((chunksExact 4 code).map readLE).mapM
        (fun v => (decode v).mapError ElfLoaderError.decodingError) = .ok instrs := by
      apply exceptMapM_ok
      exact hfor.imp (fun a b h => by rw [h]; rfl)
    rw [copy_and_decode_segments_eq, hg]
    rfl

/-- Witness for C9: two code words decoded by the identity decode. -/
theorem c9_decode_segments_witness :
    copy_and_decode_segments (fun w => Except.ok w)
        ([1, 0, 0, 0, 2, 0, 0, 0], [1, 2, 3, 4, 5, 6, 7, 8], 7)
      = .ok ⟨[1, 2], (chunksExact 8 [1, 2, 3, 4, 5, 6, 7, 8]).map readLE, 7⟩ := by
  have hchunks : chunksExact 4 [1, 0, 0, 0, 2, 0, 0, 0] = [[1, 0, 0, 0], [2, 0, 0, 0]] := by
    rw [chunksExact, dif_pos (by simp)]
    rw [show List.drop 4 [1, 0, 0, 0, 2, 0, 0, 0] = [2, 0, 0, 0] from rfl]
    rw [chunksExact, dif_pos (by simp)]
    rw [show List.drop 4 [2, 0, 0, 0] = ([] : List Nat) from rfl]
    rw [chunksExact, dif_neg (by simp)]
    rfl
  apply (c9_decode_segments (fun w => Except.ok w) [1, 0, 0, 0, 2, 0, 0, 0]
      [1, 2, 3, 4, 5, 6, 7, 8] 7).2 [1, 2]
  rw [hchunks]
  rw [show List.map readLE [[1, 0, 0, 0], [2, 0, 0, 0]] = [1, 2] from rfl]
  exact List.Forall₂.cons rfl (List.Forall₂.cons rfl List.Forall₂.nil)

/-- **C10** Segment lengths that are not multiples of the chunk size do not
make the loader fail: the trailing `length mod 4` code bytes and
`length mod 8` data bytes are silently discarded (the result only depends
on the truncated segments), and with a decode that succeeds everywhere the
decoded code segment has exactly `⌊code length / 4⌋` entries and the data
segment `⌊data length / 8⌋` words. -/
theorem c10_trailing_bytes {α : Type} (decode : Nat → Except DecodingError α)
    (code data : List Nat) (entry : Nat)
    (htotal : ∀ w : Nat, ∃ a, decode w = .ok a) :
    (∃ p : DecodedRiscuProgram α,
        copy_and_decode_segments decode (code, data, entry) = .ok p ∧
        p.code_segment.length = code.length / 4 ∧
        p.data_segment.length = data.length / 8) ∧
    copy_and_decode_segments decode (code, data, entry)
      = copy_and_decode_segments decode
          (code.take (4 * (code.length / 4)), data.take (8 * (data.length / 8)), entry) := by
  constructor
  · obtain ⟨bs, hbs, hlen⟩ := exceptMapM_total
        (fun w => (decode w).mapError ElfLoaderError.decodingError)
        ((chunksExact 4 code).map readLE)
        (fun w _ => (htotal w).elim (fun a ha =>
          ⟨a, by show (decode w).mapError ElfLoaderError.decodingError = Except.ok a
                 rw [ha]; rfl⟩))
    refine ⟨⟨bs, (chunksExact 8 data).map readLE, entry⟩, ?_, ?_, ?_⟩
    · rw [copy_and_decode_segments_eq, hbs]
      rfl
    · show bs.length = code.length / 4
      rw [hlen, List.length_map, chunksExact_length 4 (by omega)]
    · show ((chunksExact 8 data).map readLE).length = data.length / 8
      rw [List.length_map, chunksExact_length 8 (by omega)]
  · rw [copy_and_decode_segments_eq, copy_and_decode_segments_eq]
    rw [chunksExact_take 4 (by omega) code, chunksExact_take 8 (by omega) data]

/-- Witness for C10: a 5-byte code segment and 3-byte data segment. -/
theorem c10_trailing_bytes_witness :
    (∃ p : DecodedRiscuProgram Nat,
        copy_and_decode_segments (fun w => Except.ok w) ([9, 9, 9, 9, 9], [1, 2, 3], 0)
          = .ok p ∧
        p.code_segment.length = ([9, 9, 9, 9, 9] : List Nat).length / 4 ∧
        p.data_segment.length = ([1, 2, 3] : List Nat).length / 8) ∧
    copy_and_decode_segments (fun w => Except.ok w) ([9, 9, 9, 9, 9], [1, 2, 3], 0)
      = copy_and_decode_segments (fun w => Except.ok w)
          (([9, 9, 9, 9, 9] : List Nat).take (4 * (([9, 9, 9, 9, 9] : List Nat).length / 4)),
           ([1, 2, 3] : List Nat).take (8 * (([1, 2, 3] : List Nat).length / 8)), 0) :=
  c10_trailing_bytes (fun w => Except.ok w) [9, 9, 9, 9, 9] [1, 2, 3] 0 (fun w => ⟨w, rfl⟩)

section Permutation

/-- Adding bitwise-disjoint numbers is bitwise disjunction, bit by bit. -/
theorem testBit_add_disjoint (j : Nat) :
    ∀ a b : Nat, a &&& b = 0 → (a + b).testBit j = (a.testBit j || b.testBit j) := by
  induction j with
  | zero =>
    intro a b h
    have hpar : ¬(a % 2 = 1 ∧ b % 2 = 1) := by
      intro hc
      have h1 : (a &&& b) % 2 = 1 := Nat.and_mod_two_eq_one.mpr hc
      rw [h] at h1
      exact absurd h1 (by norm_num)
    rcases Nat.mod_two_eq_zero_or_one a with ha | ha <;>
      rcases Nat.mod_two_eq_zero_or_one b with hb | hb
    · simp [Nat.testBit_zero, Nat.add_mod, ha, hb]
    · simp [Nat.testBit_zero, Nat.add_mod, ha, hb]
    · simp [Nat.testBit_zero, Nat.add_mod, ha, hb]
    · exact absurd ⟨ha, hb⟩ hpar
  | succ j ih =>
    intro a b h
    have hpar : ¬(a % 2 = 1 ∧ b % 2 = 1) := by
      intro hc
      have h1 : (a &&& b) % 2 = 1 := Nat.and_mod_two_eq_one.mpr hc
      rw [h] at h1
      exact absurd h1 (by norm_num)
    have hhalf : a / 2 &&& b / 2 = 0 := by
      rw [← Nat.and_div_two, h]
    have hdiv : (a + b) / 2 = a / 2 + b / 2 := by omega
    rw [Nat.testBit_add_one, Nat.testBit_add_one, Nat.testBit_add_one, hdiv]
    exact ih (a / 2) (b / 2) hhalf

/-- A single deposited bit, seen through `testBit`. -/
theorem testBit_deposit_term (x s d j : Nat) :
    (((x >>> s) &&& 1) <<< d).testBit j = (decide (j = d) && x.testBit s) := by
  rcases Nat.lt_trichotomy j d with hlt | heq | hgt
  · rw [Nat.testBit_shiftLeft]
    simp [show ¬(j ≥ d) from by omega, show ¬(j = d) from by omega]
  · subst heq
    have hiff : (x / 2 ^ s % 2 % 2 = 1) ↔ (x / 2 ^ s % 2 = 1) := by omega
    simp only [Nat.testBit_shiftLeft, Nat.sub_self, and_mask1, Nat.testBit_zero,
      Nat.testBit_to_div_mod, Nat.shiftRight_eq_div_pow, ge_iff_le, Nat.le_refl,
      decide_eq_true_eq]
    rw [Nat.shiftLeft_eq, Nat.mul_div_cancel _ (Nat.two_pow_pos j)]
    simp [hiff]
  · have h2 : (2 : Nat) ^ 1 ≤ 2 ^ (j - d) := Nat.pow_le_pow_right (by omega) (by omega)
    have hc2 : x >>> s % 2 < 2 ^ (j - d) := by omega
    rw [Nat.testBit_shiftLeft]
    simp [and_mask1, Nat.testBit_lt_two_pow hc2, show ¬(j = d) from by omega]

/-- `testBit` characterization of `depositBits` over pairwise-distinct
target positions. -/
theorem depositBits_testBit (x : Nat) :
    ∀ ps : List (Nat × Nat), (ps.map Prod.snd).Nodup → ∀ j : Nat,
      (depositBits x ps).testBit j = ps.any (fun p => p.2 == j && x.testBit p.1) := by
  intro ps
  induction ps with
  | nil => intro _ j; simp [depositBits]
  | cons p ps ih =>
    intro hnd j
    rw [List.map_cons, List.nodup_cons] at hnd
    obtain ⟨hne, hnd2⟩ := hnd
    have htail := ih hnd2
    have hdisj : (((x >>> p.1) &&& 1) <<< p.2) &&& depositBits x ps = 0 := by
      apply Nat.eq_of_testBit_eq
      intro k
      rw [Nat.testBit_and, testBit_deposit_term, htail k, Nat.zero_testBit]
      rcases eq_or_ne k p.2 with rfl | hk
      · have hanyf : (ps.any (fun q => q.2 == p.2 && x.testBit q.1)) = false := by
          rw [List.any_eq_false]
          intro q hq
          have hqm : q.2 ∈ ps.map Prod.snd := List.mem_map_of_mem _ hq
          have : q.2 ≠ p.2 := fun hqk => hne (hqk ▸ hqm)
          simp [this]
        rw [hanyf]
        simp
      · simp [hk]
    have hsum : depositBits x (p :: ps) = ((x >>> p.1) &&& 1) <<< p.2 + depositBits x ps := by
      simp [depositBits]
    rw [hsum, testBit_add_disjoint j _ _ hdisj, testBit_deposit_term, htail j,
      List.any_cons]
    by_cases hj : j = p.2
    · simp [hj]
    · simp [hj, Ne.symm hj]

/-- With distinct targets below `W`, a deposit stays below `2 ^ W`. -/
theorem depositBits_lt (x W : Nat) (ps : List (Nat × Nat))
    (hnd : (ps.map Prod.snd).Nodup) (hW : ∀ p ∈ ps, p.2 < W) :
    depositBits x ps < 2 ^ W := by
  apply Nat.lt_pow_two_of_testBit
  intro k hk
  rw [depositBits_testBit x ps hnd k, List.any_eq_false]
  intro p hp
  have := hW p hp
  simp only [Bool.and_eq_true, beq_iff_eq, not_and]
  intro h
  omega

/-- No deposit target equal to `t` means bit `t` never appears: the `any`
over an enumeration of sources is false. -/
theorem any_enumFrom_not_mem (x t : Nat) :
    ∀ (l : List Nat) (s : Nat), t ∉ l →
      ((l.enumFrom s).any (fun p => p.2 == t && x.testBit p.1)) = false := by
  intro l
  induction l with
  | nil => intro s _; simp
  | cons q l ih =>
    intro s ht
    rw [List.mem_cons, not_or] at ht
    rw [List.enumFrom_cons, List.any_cons]
    have h1 : (q == t) = false := by
      simp only [beq_eq_false_iff_ne, ne_eq]
      exact fun hqt => ht.1 hqt.symm
    rw [ih (s + 1) ht.2]
    simp [h1]

/-- Reading the deposited value back at the position stored at index `m`
of a duplicate-free target list recovers bit `s + m` of the source. -/
theorem any_enumFrom_getD (x : Nat) :
    ∀ (l : List Nat), l.Nodup → ∀ (s m : Nat), m < l.length →
      ((l.enumFrom s).any (fun p => p.2 == l.getD m 0 && x.testBit p.1))
        = x.testBit (s + m) := by
  intro l
  induction l with
  | nil => intro _ s m hm; simp at hm
  | cons q l ih =>
    intro hnd s m hm
    rw [List.nodup_cons] at hnd
    obtain ⟨hq, hnd2⟩ := hnd
    match m with
    | 0 =>
      rw [List.getD_cons_zero, List.enumFrom_cons, List.any_cons]
      rw [any_enumFrom_not_mem x q l (s + 1) hq]
      simp
    | Nat.succ m =>
      rw [List.getD_cons_succ, List.enumFrom_cons, List.any_cons]
      have hml : m < l.length := by simp at hm; omega
      have hmem : l.getD m 0 ∈ l := by
        rw [List.getD_eq_getElem l 0 hml]
        exact List.getElem_mem hml
      have h1 : (q == l.getD m 0) = false := by
        simp only [beq_eq_false_iff_ne, ne_eq]
        exact fun hqm => hq (hqm ▸ hmem)
      rw [ih hnd2 (s + 1) m hml, h1]
      simp only [Bool.false_and, Bool.false_or]
      rw [show s + 1 + m = s + (m + 1) by omega]

/-- The gather pass, through `any`: reading bit positions taken from a list
and packing them downward from index `s`. -/
theorem any_enumFrom_swap (y : Nat) :
    ∀ (l : List Nat) (s j : Nat),
      (((l.enumFrom s).map (fun p => (p.2, p.1))).any
          (fun p => p.2 == j && y.testBit p.1))
        = (decide (s ≤ j ∧ j < s + l.length) && y.testBit (l.getD (j - s) 0)) := by
  intro l
  induction l with
  | nil => intro s j; simp
  | cons q l ih =>
    intro s j
    rw [List.enumFrom_cons, List.map_cons, List.any_cons, ih (s + 1) j]
    rcases eq_or_ne s j with rfl | hsj
    · have h1 : ¬(s + 1 ≤ s ∧ s < s + 1 + l.length) := by omega
      have h2 : s ≤ s ∧ s < s + (q :: l).length := by simp
      simp [h1, h2]
    · have h1 : (s == j) = false := by simp [hsj]
      rw [h1]
      simp only [Bool.false_and, Bool.false_or]
      rcases Nat.lt_or_ge j s with hlt | hge
      · have h2 : ¬(s + 1 ≤ j ∧ j < s + 1 + l.length) := by omega
        have h3 : ¬(s ≤ j ∧ j < s + (q :: l).length) := by omega
        simp [h2, h3]
        intro hsle
        exact absurd hsle (by omega)
      · have hj1 : s + 1 ≤ j := by omega
        have h4 : (s + 1 ≤ j ∧ j < s + 1 + l.length) ↔ (s ≤ j ∧ j < s + (q :: l).length) := by
          simp; omega
        have h5 : (q :: l).getD (j - s) 0 = l.getD (j - (s + 1)) 0 := by
          rw [show j - s = (j - (s + 1)) + 1 by omega, List.getD_cons_succ]
        rw [h5]
        congr 1
        exact decide_eq_decide.mpr h4

/-- Core round trip: gathering after scattering along a duplicate-free
in-range position list recovers any value representable in `length` bits. -/
theorem gather_scatter (W : Nat) (P : List Nat) (x : Nat)
    (hlen : P.length ≤ W) (hnd : P.Nodup) (hmem : ∀ e ∈ P, e < W)
    (hx : x < 2 ^ P.length) :
    depositBits (depositBits x P.reverse.enum % 2 ^ W)
        (P.reverse.enum.map (fun p => (p.2, p.1))) % 2 ^ W = x := by
  obtain ⟨Q, hQ⟩ : ∃ Q, P.reverse = Q := ⟨_, rfl⟩
  rw [hQ, List.enum_eq_enumFrom]
  have hQnd : Q.Nodup := hQ ▸ List.nodup_reverse.mpr hnd
  have hQmem : ∀ e ∈ Q, e < W := fun e he => hmem e (List.mem_reverse.mp (hQ ▸ he))
  have hQlen : Q.length = P.length := by rw [← hQ, List.length_reverse]
  have hREsnd : ((Q.enumFrom 0).map Prod.snd) = Q := List.enumFrom_map_snd 0 Q
  have hREnd : ((Q.enumFrom 0).map Prod.snd).Nodup := by rw [hREsnd]; exact hQnd
  have hREW : ∀ p ∈ Q.enumFrom 0, p.2 < W := by
    intro p hp
    exact hQmem p.2 (hREsnd ▸ List.mem_map_of_mem Prod.snd hp)
  have hscat_lt : depositBits x (Q.enumFrom 0) < 2 ^ W :=
    depositBits_lt x W (Q.enumFrom 0) hREnd hREW
  rw [Nat.mod_eq_of_lt hscat_lt]
  have hSWsnd : (((Q.enumFrom 0).map (fun p => (p.2, p.1))).map Prod.snd)
      = List.range' 0 Q.length := by
    rw [List.map_map]
    rw [show (Prod.snd ∘ fun p : Nat × Nat => (p.2, p.1)) = Prod.fst from rfl]
    rw [List.enumFrom_map_fst]
  have hSWnd : (((Q.enumFrom 0).map (fun p => (p.2, p.1))).map Prod.snd).Nodup := by
    rw [hSWsnd]; exact List.nodup_range' 0 Q.length
  have hSWW : ∀ p ∈ ((Q.enumFrom 0).map (fun p => (p.2, p.1))), p.2 < W := by
    intro p hp
    have h1 : p.2 ∈ List.range' 0 Q.length := by
      rw [← hSWsnd]; exact List.mem_map_of_mem Prod.snd hp
    obtain ⟨k, hk, he⟩ := List.mem_range'.mp h1
    omega
  have hgath_lt : depositBits (depositBits x (Q.enumFrom 0))
      ((Q.enumFrom 0).map (fun p => (p.2, p.1))) < 2 ^ W :=
    depositBits_lt _ W _ hSWnd hSWW
  rw [Nat.mod_eq_of_lt hgath_lt]
  apply Nat.eq_of_testBit_eq
  intro j
  rw [depositBits_testBit _ _ hSWnd j]
  rw [any_enumFrom_swap (depositBits x (Q.enumFrom 0)) Q 0 j]
  by_cases hj : j < Q.length
  · have hcond : 0 ≤ j ∧ j < 0 + Q.length := ⟨Nat.zero_le j, by omega⟩
    rw [decide_eq_true hcond, Bool.true_and, Nat.sub_zero]
    rw [depositBits_testBit x (Q.enumFrom 0) hREnd]
    rw [any_enumFrom_getD x Q hQnd 0 j hj, Nat.zero_add]
  · have hcond : ¬(0 ≤ j ∧ j < 0 + Q.length) := by omega
    rw [decide_eq_false hcond, Bool.false_and]
    have hxj : x < 2 ^ j := by
      calc x < 2 ^ P.length := hx
      _ ≤ 2 ^ j := Nat.pow_le_pow_right (by omega) (by omega)
    exact (Nat.testBit_lt_two_pow hxj).symm

end Permutation

/-- **C3** (amended) For each width W in {16, 32}, for every permutation
list P of length at most W with all-distinct entries all below W, and for
every value x representable within `P.length` bits (`x < 2 ^ P.length`),
`permute` inverts `inv_permute`: `permute (inv_permute x P) P = x`. -/
theorem c3_permute_roundtrip :
    (∀ (P : List Nat) (x : Nat), P.length ≤ 16 → P.Nodup → (∀ e ∈ P, e < 16) →
        x < 2 ^ P.length → u16_permute (u16_inv_permute x P) P = x)
    ∧ (∀ (P : List Nat) (x : Nat), P.length ≤ 32 → P.Nodup → (∀ e ∈ P, e < 32) →
        x < 2 ^ P.length → u32_permute (u32_inv_permute x P) P = x) := by
  constructor <;> intro P x hlen hnd hmem hx <;>
    exact gather_scatter _ P x hlen hnd hmem hx

/-- Witness for the amended C3 at `P = [1, 0]`, `x = 2`. -/
theorem c3_permute_roundtrip_witness :
    ([1, 0] : List Nat).length ≤ 16 ∧ ([1, 0] : List Nat).Nodup ∧
    (∀ e ∈ ([1, 0] : List Nat), e < 16) ∧
    (2 : Nat) < 2 ^ ([1, 0] : List Nat).length ∧
    u16_permute (u16_inv_permute 2 [1, 0]) [1, 0] = 2 :=
  ⟨by decide, by decide, by decide, by decide,
    c3_permute_roundtrip.1 [1, 0] 2 (by decide) (by decide) (by decide) (by decide)⟩

/-- Counterexample for C3 as stated: with W = 16, the list `P = [0]`
(length ≤ 16, distinct, in range) and the representable value `x = 2 <
2 ^ 16`, the round trip returns 0, not 2 — the claim fails for values not
representable within `P.length` bits. -/
theorem c3_permute_roundtrip_counterexample :
    ([0] : List Nat).length ≤ 16 ∧ ([0] : List Nat).Nodup ∧
    (∀ e ∈ ([0] : List Nat), e < 16) ∧ (2 : Nat) < 2 ^ 16 ∧
    u16_permute (u16_inv_permute 2 [0]) [0] = 0 ∧ (0 : Nat) ≠ 2 := by decide

/-- **C7** For every 16-bit input word, `decompress_q0` returns an error and
never an instruction: `Illegal` when bits 13-15 are `000`, `Reserved` when
they are `100`, and `Unimplemented` for every other value of bits 13-15. -/
theorem c7_q0_error_classification (i : Nat) (hi : i < 65536) :
    ((i >>> 13) &&& 7 = 0 → decompress_q0 i = .err DecodingError.illegal)
    ∧ ((i >>> 13) &&& 7 = 4 → decompress_q0 i = .err DecodingError.reserved)
    ∧ ((i >>> 13) &&& 7 ≠ 0 → (i >>> 13) &&& 7 ≠ 4 →
        decompress_q0 i = .err DecodingError.unimplemented) := by
  obtain ⟨v, hv⟩ : ∃ v, (i >>> 13) &&& 7 = v := ⟨_, rfl⟩
  have hlt : v < 8 := by rw [← hv, and_mask7]; omega
  refine ⟨fun h => ?_, fun h => ?_, fun h0 h4 => ?_⟩
  · unfold decompress_q0; rw [hv]; rw [hv] at h; rw [h]
  · unfold decompress_q0; rw [hv]; rw [hv] at h; rw [h]
  · unfold decompress_q0; rw [hv]; rw [hv] at h0 h4
    interval_cases v <;> first | rfl | omega

/-- Witness for C7 at the all-zero input word. -/
theorem c7_q0_error_classification_witness :
    (0 : Nat) < 65536 ∧ decompress_q0 0 = .err DecodingError.illegal :=
  ⟨by decide, (c7_q0_error_classification 0 (by decide)).1 (by decide)⟩

/-- **C8** For every 16-bit input word with bits 13-15 equal to `010` and a
zero `rd` field (bits 7-11), both `decompress_q1` (C.LI) and
`decompress_q2` (C.LWSP) hit the `assert!(rd != 0)` and panic before any
instruction is built, returning neither `Ok` nor an error. -/
theorem c8_rd_zero_panics (i : Nat) (hi : i < 65536) (htop : (i >>> 13) &&& 7 = 2)
    (hrd : (i >>> 7) &&& 31 = 0) :
    decompress_q1 i = .panic ∧ decompress_q2 i = .panic := by
  constructor
  · unfold decompress_q1; rw [htop]; simp [hrd]
  · unfold decompress_q2; rw [htop]; simp [hrd]

/-- **C1** (amended) For every 16-bit input word with bits 13-15 equal to
`010` and nonzero `rd` (bits 7-11), `decompress_q1` returns `Ok` with a
32-bit ADDI word (opcode `0b0010011`, funct3 `0b000`) whose `rd` field
equals `rd`, whose `rs1` field is the zero register, and whose 12-bit
immediate field equals the **zero-extended** 6-bit CI immediate (the code
performs no sign extension). -/
theorem c1_cli_addi (i : Nat) (hi : i < 65536) (htop : (i >>> 13) &&& 7 = 2)
    (hrd : (i >>> 7) &&& 31 ≠ 0) :
    ∃ w, decompress_q1 i = .ok w ∧
      w &&& 127 = 19 ∧
      (w >>> 12) &&& 7 = 0 ∧
      (w >>> 7) &&& 31 = (i >>> 7) &&& 31 ∧
      (w >>> 15) &&& 31 = Register.zero.toNat ∧
      w >>> 20 = get_imm i InstrFormat.ci := by
  have hgl := get_imm_lt i
  have hrdl : (i >>> 7) &&& 31 < 32 := by rw [and_mask31]; omega
  have hred : decompress_q1 i
      = .ok (build_itype CiInstr.addi ((i >>> 7) &&& 31) Register.zero.toNat
          (get_imm i InstrFormat.ci)) := by
    unfold decompress_q1; rw [htop]; simp [hrd]
  have hb : build_itype CiInstr.addi ((i >>> 7) &&& 31) Register.zero.toNat
      (get_imm i InstrFormat.ci)
      = get_imm i InstrFormat.ci * 1048576 + ((i >>> 7) &&& 31) * 128 + 19 := by
    rw [show Register.zero.toNat = 0 from rfl]
    rw [build_itype_addi_eq _ _ _ hrdl (by omega) (by omega)]
    ring
  rw [hb] at hred
  refine ⟨_, hred, ?_, ?_, ?_, ?_, ?_⟩
  · rw [and_mask127]; omega
  · rw [Nat.shiftRight_eq_div_pow, and_mask7]
    have : (2 : Nat) ^ 12 = 4096 := by norm_num
    rw [this]; omega
  · rw [Nat.shiftRight_eq_div_pow, and_mask31]
    have : (2 : Nat) ^ 7 = 128 := by norm_num
    rw [this]
    rw [and_mask31]
    omega
  · rw [Nat.shiftRight_eq_div_pow, and_mask31]
    have : (2 : Nat) ^ 15 = 32768 := by norm_num
    rw [this, show Register.zero.toNat = 0 from rfl]
    omega
  · rw [Nat.shiftRight_eq_div_pow]
    have : (2 : Nat) ^ 20 = 1048576 := by norm_num
    rw [this]; omega

/-- Witness for C1 at input `0x4080` (C.LI, `rd = 1`, immediate 0). -/
theorem c1_cli_addi_witness :
    (0x4080 : Nat) < 65536 ∧ (0x4080 >>> 13) &&& 7 = 2 ∧ (0x4080 >>> 7) &&& 31 ≠ 0 ∧
    (∃ w, decompress_q1 0x4080 = .ok w ∧
      w &&& 127 = 19 ∧
      (w >>> 12) &&& 7 = 0 ∧
      (w >>> 7) &&& 31 = (0x4080 >>> 7) &&& 31 ∧
      (w >>> 15) &&& 31 = Register.zero.toNat ∧
      w >>> 20 = get_imm 0x4080 InstrFormat.ci) :=
  ⟨by decide, by decide, by decide,
    c1_cli_addi 0x4080 (by decide) (by decide) (by decide)⟩

/-- Counterexample for C1 as stated: at input `0x5080` (C.LI, `rd = 1`,
CI immediate `0b100000` = 32, whose sign bit is set) the produced ADDI word
is `0x02000093`, whose 12-bit immediate field is 32 — the zero-extension of
the CI immediate — while the sign-extended 6-bit CI immediate claimed by
the spec is the 12-bit value 4064. -/
theorem c1_cli_addi_counterexample :
    (0x5080 >>> 13) &&& 7 = 2 ∧ (0x5080 >>> 7) &&& 31 ≠ 0 ∧
    decompress_q1 0x5080 = .ok 0x02000093 ∧
    (0x02000093 : Nat) >>> 20 = 32 ∧
    signExtend6To12 (get_imm 0x5080 InstrFormat.ci) = 4064 ∧
    (32 : Nat) ≠ 4064 := by decide

/-- **C5** For every 16-bit input word with bits 13-15 equal to `010` and
nonzero `rd` (bits 7-11), `decompress_q2` returns `Ok` with a 32-bit LW
word (opcode `0b0000011`, funct3 `0b010`) whose `rd` field equals `rd`,
whose `rs1` field is the stack pointer, and whose immediate field equals
the CI immediate after `inv_permute` with the list `[5,4,3,2,7,6]`. -/
theorem c5_lwsp_lw (i : Nat) (hi : i < 65536) (htop : (i >>> 13) &&& 7 = 2)
    (hrd : (i >>> 7) &&& 31 ≠ 0) :
    ∃ w, decompress_q2 i = .ok w ∧
      w &&& 127 = 3 ∧
      (w >>> 12) &&& 7 = 2 ∧
      (w >>> 7) &&& 31 = (i >>> 7) &&& 31 ∧
      (w >>> 15) &&& 31 = Register.sp.toNat ∧
      w >>> 20 = u16_inv_permute (get_imm i InstrFormat.ci) [5, 4, 3, 2, 7, 6] := by
  have hgl := lwsp_imm_lt (get_imm i InstrFormat.ci)
  have hrdl : (i >>> 7) &&& 31 < 32 := by rw [and_mask31]; omega
  have hred : decompress_q2 i
      = .ok (build_itype CiInstr.lw ((i >>> 7) &&& 31) 0
          (u16_inv_permute (get_imm i InstrFormat.ci) [5, 4, 3, 2, 7, 6])) := by
    unfold decompress_q2; rw [htop]; simp [hrd]
  have hb : build_itype CiInstr.lw ((i >>> 7) &&& 31) 0
      (u16_inv_permute (get_imm i InstrFormat.ci) [5, 4, 3, 2, 7, 6])
      = u16_inv_permute (get_imm i InstrFormat.ci) [5, 4, 3, 2, 7, 6] * 1048576
        + 2 * 32768 + 2 * 4096 + ((i >>> 7) &&& 31) * 128 + 3 :=
    build_itype_lw_eq _ _ _ hrdl hgl
  rw [hb] at hred
  refine ⟨_, hred, ?_, ?_, ?_, ?_, ?_⟩
  · rw [and_mask127]; omega
  · rw [Nat.shiftRight_eq_div_pow, and_mask7]
    have : (2 : Nat) ^ 12 = 4096 := by norm_num
    rw [this]; omega
  · rw [Nat.shiftRight_eq_div_pow, and_mask31]
    have : (2 : Nat) ^ 7 = 128 := by norm_num
    rw [this]
    rw [and_mask31]
    omega
  · rw [Nat.shiftRight_eq_div_pow, and_mask31]
    have : (2 : Nat) ^ 15 = 32768 := by norm_num
    rw [this, show Register.sp.toNat = 2 from rfl]
    omega
  · rw [Nat.shiftRight_eq_div_pow]
    have : (2 : Nat) ^ 20 = 1048576 := by norm_num
    rw [this]; omega

/-- Witness for C5 at input `0x4082` (C.LWSP, `rd = 1`). -/
theorem c5_lwsp_lw_witness :
    (0x4082 : Nat) < 65536 ∧ (0x4082 >>> 13) &&& 7 = 2 ∧ (0x4082 >>> 7) &&& 31 ≠ 0 ∧
    (∃ w, decompress_q2 0x4082 = .ok w ∧
      w &&& 127 = 3 ∧
      (w >>> 12) &&& 7 = 2 ∧
      (w >>> 7) &&& 31 = (0x4082 >>> 7) &&& 31 ∧
      (w >>> 15) &&& 31 = Register.sp.toNat ∧
      w >>> 20 = u16_inv_permute (get_imm 0x4082 InstrFormat.ci) [5, 4, 3, 2, 7, 6]) :=
  ⟨by decide, by decide, by decide,
    c5_lwsp_lw 0x4082 (by decide) (by decide) (by decide)⟩

/-- **C6** For every 16-bit input word with bits 13-15 equal to `100` and
bits 10-11 equal to `11`: with bit 12 = 0 and bits 5-6 = `00`,
`decompress_q1` returns a SUB word (opcode `0b0110011`, funct3 `0b000`,
funct7 `0b0100000`) whose `rd` and `rs1` fields are `8 + bits[9:7]` and
whose `rs2` field is `8 + bits[4:2]`; with bit 12 = 1 and bits 5-6 in
`{10, 11}` it returns the `Reserved` error. -/
theorem c6_misc_alu_sub (i : Nat) (hi : i < 65536) (htop : (i >>> 13) &&& 7 = 4)
    (hsub : (i >>> 10) &&& 3 = 3) :
    ((i >>> 12) &&& 1 = 0 → (i >>> 5) &&& 3 = 0 →
      ∃ w, decompress_q1 i = .ok w ∧
        w &&& 127 = 51 ∧
        (w >>> 12) &&& 7 = 0 ∧
        w >>> 25 = 32 ∧
        (w >>> 7) &&& 31 = 8 + ((i >>> 7) &&& 7) ∧
        (w >>> 15) &&& 31 = 8 + ((i >>> 7) &&& 7) ∧
        (w >>> 20) &&& 31 = 8 + ((i >>> 2) &&& 7))
    ∧ ((i >>> 12) &&& 1 = 1 → ((i >>> 5) &&& 3 = 2 ∨ (i >>> 5) &&& 3 = 3) →
        decompress_q1 i = .err DecodingError.reserved) := by
  constructor
  · intro hb12 hb56
    obtain ⟨K, hK⟩ : ∃ v, (i >>> 7) &&& 7 = v := ⟨_, rfl⟩
    obtain ⟨J, hJ⟩ : ∃ v, (i >>> 2) &&& 7 = v := ⟨_, rfl⟩
    have hK8 : K < 8 := by rw [← hK, and_mask7]; omega
    have hJ8 : J < 8 := by rw [← hJ, and_mask7]; omega
    rw [hK, hJ]
    have hred : decompress_q1 i
        = .ok (build_rtype CrInstr.sub (8 + K) (8 + K) (8 + J)) := by
      unfold decompress_q1; rw [htop, hsub, hb12, hb56, hK, hJ]
    rw [build_rtype_sub_eq _ _ _ (by omega) (by omega) (by omega)] at hred
    interval_cases K <;> interval_cases J <;>
      exact ⟨_, hred, by decide, by decide, by decide, by decide, by decide, by decide⟩
  · intro hb12 hor
    rcases hor with h56 | h56
    · unfold decompress_q1; rw [htop, hsub, hb12, h56]
    · unfold decompress_q1; rw [htop, hsub, hb12, h56]

/-- Witness for C6 at input `0x8C00` (C.SUB of registers 8, 8). -/
theorem c6_misc_alu_sub_witness :
    (0x8C00 : Nat) < 65536 ∧ (0x8C00 >>> 13) &&& 7 = 4 ∧ (0x8C00 >>> 10) &&& 3 = 3 ∧
    (0x8C00 >>> 12) &&& 1 = 0 ∧ (0x8C00 >>> 5) &&& 3 = 0 ∧
    (∃ w, decompress_q1 0x8C00 = .ok w ∧
      w &&& 127 = 51 ∧
      (w >>> 12) &&& 7 = 0 ∧
      w >>> 25 = 32 ∧
      (w >>> 7) &&& 31 = 8 + ((0x8C00 >>> 7) &&& 7) ∧
      (w >>> 15) &&& 31 = 8 + ((0x8C00 >>> 7) &&& 7) ∧
      (w >>> 20) &&& 31 = 8 + ((0x8C00 >>> 2) &&& 7)) :=
  ⟨by decide, by decide, by decide, by decide, by decide,
    (c6_misc_alu_sub 0x8C00 (by decide) (by decide) (by decide)).1 (by decide) (by decide)⟩

/-- **C2** (amended) For every 16-bit input word with bits 13-15 `100` and
bits 10-11 `11`, `decompress_q1` panics (reaches the `unreachable!()` arm)
exactly when the pair (bit 12, bits 5-6) lies outside
`{(0,00), (1,10), (1,11)}`; the other five combinations do occur among
16-bit inputs, so `decompress_q1` is not total on this sub-case. -/
theorem c2_misc_alu_partial (i : Nat) (hi : i < 65536) (htop : (i >>> 13) &&& 7 = 4)
    (hsub : (i >>> 10) &&& 3 = 3) :
    decompress_q1 i = .panic
      ↔ ¬(((i >>> 12) &&& 1 = 0 ∧ (i >>> 5) &&& 3 = 0)
          ∨ ((i >>> 12) &&& 1 = 1 ∧ ((i >>> 5) &&& 3 = 2 ∨ (i >>> 5) &&& 3 = 3))) := by
  obtain ⟨a, ha⟩ : ∃ a, (i >>> 12) &&& 1 = a := ⟨_, rfl⟩
  obtain ⟨b, hb⟩ : ∃ b, (i >>> 5) &&& 3 = b := ⟨_, rfl⟩
  have ha2 : a < 2 := by rw [← ha, and_mask1]; omega
  have hb4 : b < 4 := by rw [← hb, and_mask3]; omega
  unfold decompress_q1
  rw [htop, hsub, ha, hb]
  interval_cases a <;> interval_cases b <;> simp

/-- Witness for the amended C2 at input `0x8C20` (would-be C.XOR). -/
theorem c2_misc_alu_partial_witness :
    (0x8C20 : Nat) < 65536 ∧ (0x8C20 >>> 13) &&& 7 = 4 ∧ (0x8C20 >>> 10) &&& 3 = 3 ∧
    (decompress_q1 0x8C20 = .panic
      ↔ ¬(((0x8C20 >>> 12) &&& 1 = 0 ∧ (0x8C20 >>> 5) &&& 3 = 0)
          ∨ ((0x8C20 >>> 12) &&& 1 = 1
              ∧ ((0x8C20 >>> 5) &&& 3 = 2 ∨ (0x8C20 >>> 5) &&& 3 = 3)))) :=
  ⟨by decide, by decide, by decide,
    c2_misc_alu_partial 0x8C20 (by decide) (by decide) (by decide)⟩

/-- Counterexample for C2 as stated: the input `0x8C20` has bits 13-15
`100`, bits 10-11 `11`, and the dispatch pair (bit 12, bits 5-6) = (0, 01)
— one of the combinations the claim says never occurs — and `decompress_q1`
reaches the panicking `unreachable!()` arm instead of returning a value. -/
theorem c2_misc_alu_partial_counterexample :
    (0x8C20 >>> 13) &&& 7 = 4 ∧ (0x8C20 >>> 10) &&& 3 = 3 ∧
    (0x8C20 >>> 12) &&& 1 = 0 ∧ (0x8C20 >>> 5) &&& 3 = 1 ∧
    decompress_q1 0x8C20 = .panic := by decide

/-- Witness for C8 at input `0x4000` (C.LI with `rd = 0`). -/
theorem c8_rd_zero_panics_witness :
    (0x4000 : Nat) < 65536 ∧ (0x4000 >>> 13) &&& 7 = 2 ∧ (0x4000 >>> 7) &&& 31 = 0 ∧
    (decompress_q1 0x4000 = .panic ∧ decompress_q2 0x4000 = .panic) :=
  ⟨by decide, by decide, by decide,
    c8_rd_zero_panics 0x4000 (by decide) (by decide) (by decide)⟩

/-- **C4** (amended) For every 64-bit little-endian executable ELF image,
the loader's segment-count validation fails with the "must have 2 program
segments" classification exactly when the image does NOT both declare
exactly two program headers in total (`e_phnum = 2`) and have exactly two
PT_LOAD program headers among them; extra non-PT_LOAD headers therefore
also trip this check. -/
theorem c4_segment_count (raw : List Nat) (elf : Elf)
    (h1 : elf.is_lib = false) (h2 : elf.is_64 = true) (h3 : elf.little_endian = true) :
    (extract_program_info raw elf
        = .err (.invalidRiscu ("must have 2 program segments")))
      ↔ ¬(elf.e_phnum = 2
          ∧ (elf.program_headers.filter (fun ph => ph.p_type == ptLoad)).length = 2) := by
  unfold extract_program_info
  rw [h1, h2, h3]
  simp only [Bool.not_true, Bool.or_false, Bool.false_or, Bool.false_eq_true, if_false]
  by_cases hc : elf.e_phnum ≠ 2
      ∨ (elf.program_headers.filter (fun ph => ph.p_type == ptLoad)).length ≠ 2
  · rw [if_pos hc]
    constructor
    · intro _
      rcases hc with hc | hc
      · exact fun hab => hc hab.1
      · exact fun hab => hc hab.2
    · intro _
      rfl
  · rw [if_neg hc]
    push_neg at hc
    constructor
    · intro h
      exfalso
      split at h
      · simp only [Outcome.err.injEq, ElfLoaderError.invalidRiscu.injEq] at h
        exact absurd h (by decide)
      · split at h
        · simp only [Outcome.err.injEq, ElfLoaderError.invalidRiscu.injEq] at h
          exact absurd h (by decide)
        · split at h
          · exact Outcome.noConfusion h
          · exact Outcome.noConfusion h
    · intro hn
      exact absurd hc hn

/-- Witness for the amended C4 at an ELF with two PT_LOAD headers and one
PT_NOTE header. -/
theorem c4_segment_count_witness :
    (let elf : Elf := ⟨false, true, true, 3,
        [⟨1, false, false, true, 0, 0⟩, ⟨1, true, true, false, 0, 0⟩,
         ⟨4, false, true, false, 0, 0⟩], 0⟩
     elf.is_lib = false ∧ elf.is_64 = true ∧ elf.little_endian = true ∧
     ((extract_program_info [] elf
         = .err (.invalidRiscu ("must have 2 program segments")))
       ↔ ¬(elf.e_phnum = 2
           ∧ (elf.program_headers.filter (fun ph => ph.p_type == ptLoad)).length = 2))) :=
  ⟨rfl, rfl, rfl, c4_segment_count [] _ rfl rfl rfl⟩

/-- Counterexample for C4 as stated: a 64-bit little-endian executable ELF
image declaring exactly two PT_LOAD program headers plus one PT_NOTE header
(`e_phnum = 3`) is rejected with "must have 2 program segments", although
the claim says every image with exactly two PT_LOAD headers passes that
check regardless of its other program headers. -/
theorem c4_segment_count_counterexample :
    (let elf : Elf := ⟨false, true, true, 3,
        [⟨1, false, false, true, 0, 0⟩, ⟨1, true, true, false, 0, 0⟩,
         ⟨4, false, true, false, 0, 0⟩], 0⟩
     (elf.program_headers.filter (fun ph => ph.p_type == ptLoad)).length = 2
       ∧ elf.is_lib = false ∧ elf.is_64 = true ∧ elf.little_endian = true
       ∧ extract_program_info [] elf
           = .err (.invalidRiscu ("must have 2 program segments"))) :=
  ⟨rfl, rfl, rfl, rfl, rfl⟩
